import Mathlib

/- Verification development for the branch-growth engine of
   `pygame_2d_random_fractals.pyw` (Pygame 2D Random Fractals).

   Modelling conventions:
   * Python floats are modelled as real numbers.
   * The ambient `random.gauss` generator is modelled as an injected stream
     `g : ℕ → ℝ` of standard-normal draws, consumed sequentially: the draw
     with index `n` of `random.gauss(μ, σ)` yields `μ + σ * g n`.  Each state
     carries the index of the next unconsumed draw in its `counter` field.
   * The pygame surface is modelled as the list of line segments committed to
     it, in drawing order (the `segments` field).
   * Python's `x ** y` on nonnegative floats is modelled by `Real.rpow`.
   * The driving loop's possible exceptions are made explicit in `RunOutcome`:
     the `IndexError` that `tree.branches[i]` raises for `i ≥ len` is caught
     by the source and modelled as normal completion, while the
     `AttributeError` that `None.activate()` would raise is not caught and is
     modelled by the `dead` constructor. -/

noncomputable section

namespace Fractal

/-- Maximum number of branches per tree (source line 14). -/
def MAX_BRANCH_COUNT : ℕ := 1000000

/-- Minimum branch size before a branch stops branching out (source line 18). -/
def MINIMUM_BRANCH_SIZE : ℝ := 3 / 10000

/-- The draw with index `n` of Python's `random.gauss μ σ`, for the injected
stream `g` of standard-normal samples. -/
def gauss (μ σ : ℝ) (g : ℕ → ℝ) (n : ℕ) : ℝ := μ + σ * g n

/-- The eight scalar parameters handed to `Tree.__init__` (source lines
40-62); the `presets` list of source lines 21-30 is one such tuple. -/
structure Preset where
  branch_width : ℝ
  branch_width_factor : ℝ
  branch_length_mean : ℝ
  branch_length_range : ℝ
  branch_length_factor : ℝ
  branch_angle_mean : ℝ
  branch_angle_range : ℝ
  branch_angle_factor : ℝ

/-- A branch (source lines 94-107, `Branch.__init__`).  The `parent` back
reference is not part of the state; its fields live in `Preset` and
`TreeState`. -/
structure Branch where
  index : ℕ
  pos : ℝ × ℝ
  branch_size : ℝ
  branch_length : ℝ
  branch_direction : ℝ

/-- One line segment committed to the raster surface by `pygame.draw.line`
(source line 124): endpoints, effective color and integer width. -/
structure Segment where
  p1 : ℝ × ℝ
  p2 : ℝ × ℝ
  color : ℝ × ℝ × ℝ
  width : ℤ

/-- The mutable state of one `Tree` (source lines 39-65) together with the
surface (as the list of drawn segments) and the index of the next random
draw. -/
structure TreeState where
  branches : List (Option Branch)
  segments : List Segment
  counter : ℕ

/-- Python's `int()` truncation toward zero, applied to the width at source
line 124. -/
def pyInt (x : ℝ) : ℤ := if 0 ≤ x then ⌊x⌋ else ⌈x⌉

/-- Source lines 71-74: fold a sample by reflecting negative values as
`1 + x`, then clamp with `max(min(·, 1), 0)`. -/
def foldClamp (x : ℝ) : ℝ :=
  max (min (if x < 0 then 1 + x else x) 1) 0

/-- Source lines 118-124 (`Branch.draw`): widths below 1 dim each color
channel by the width and draw at width 1; otherwise the width is truncated
to an integer and the color is left unscaled. -/
def draw (color : ℝ × ℝ × ℝ) (pos1 pos2 : ℝ × ℝ) (width : ℝ) : Segment :=
  if width < 1 then
    { p1 := pos1, p2 := pos2,
      color := (color.1 * width, color.2.1 * width, color.2.2 * width),
      width := 1 }
  else
    { p1 := pos1, p2 := pos2, color := color, width := pyInt width }

/-- Source lines 71-87: the two children built by `Tree.branch_split`, as a
function of the preset, the stream, the next draw index `n`, the branch-list
length `L` at append time, the split position, and the parent's size and
direction.  The four draws are consumed in source order: proportion, first
length, second length, angle. -/
def split_children (P : Preset) (g : ℕ → ℝ) (n L : ℕ) (pos : ℝ × ℝ)
    (prev_size prev_direction : ℝ) : Branch × Branch :=
  let proportion := foldClamp (gauss 0 (1 / 10) g n)
  let branch_1_size := prev_size * proportion
  let branch_2_size := prev_size * (1 - proportion)
  let branch_1_length :=
    gauss P.branch_length_mean P.branch_length_range g (n + 1) *
      branch_1_size ^ P.branch_length_factor
  let branch_2_length :=
    gauss P.branch_length_mean P.branch_length_range g (n + 2) *
      branch_2_size ^ P.branch_length_factor
  let angle :=
    gauss P.branch_angle_mean P.branch_angle_range g (n + 3) *
      prev_size ^ P.branch_angle_factor
  let branch_1_angle := prev_direction - angle * (1 - proportion)
  let branch_2_angle := prev_direction + angle * proportion
  (⟨L, pos, branch_1_size, branch_1_length, branch_1_angle⟩,
   ⟨L + 1, pos, branch_2_size, branch_2_length, branch_2_angle⟩)

/-- Source lines 68-91 (`Tree.branch_split`): clear the parent's slot, build
the two children with `index` fields equal to the list length at append time,
and append them at the end.  Four random draws are consumed. -/
def branch_split (P : Preset) (g : ℕ → ℝ) (st : TreeState) (index : ℕ)
    (pos : ℝ × ℝ) (prev_size prev_direction : ℝ) : TreeState :=
  let branches := st.branches.set index none
  let c := split_children P g st.counter branches.length pos prev_size
    prev_direction
  { branches := branches ++ [some c.1, some c.2],
    segments := st.segments,
    counter := st.counter + 4 }

/-- Source lines 111-113: the endpoint a branch extends to before splitting. -/
def final_position (b : Branch) : ℝ × ℝ :=
  (b.pos.1 + Real.cos b.branch_direction * b.branch_length,
   b.pos.2 + Real.sin b.branch_direction * b.branch_length)

/-- Source lines 110-116 (`Branch.activate`): draw the branch's segment, then
split if and only if the size is strictly above `MINIMUM_BRANCH_SIZE`. -/
def activate (P : Preset) (g : ℕ → ℝ) (st : TreeState) (b : Branch) :
    TreeState :=
  let seg := draw (255, 255, 255) b.pos (final_position b)
    (P.branch_width * b.branch_size ^ P.branch_width_factor)
  let st1 : TreeState :=
    { branches := st.branches, segments := st.segments ++ [seg],
      counter := st.counter }
  if MINIMUM_BRANCH_SIZE < b.branch_size then
    branch_split P g st1 b.index (final_position b) b.branch_size
      b.branch_direction
  else st1

/-- Source line 65 (`Tree.__init__`): the seed branch, at slot 0, size 1,
with its length drawn from the stream (draw index 0). -/
def initTree (P : Preset) (g : ℕ → ℝ) (initial_pos : ℝ × ℝ)
    (initial_direction : ℝ) : TreeState :=
  { branches := [some ⟨0, initial_pos, 1,
      gauss P.branch_length_mean P.branch_length_range g 0,
      initial_direction⟩],
    segments := [],
    counter := 1 }

/-- Outcome of the driving loop of `generate_tree` (source lines 150-154):
`ok` is normal completion (cap reached, or `IndexError` caught by the
`except` clause and turned into `break`); `dead` is the uncaught
`AttributeError` a `None` slot dereference would raise. -/
inductive RunOutcome where
  | ok (st : TreeState)
  | dead (st : TreeState) (i : ℕ)

/-- The tree state carried by an outcome. -/
def outState : RunOutcome → TreeState
  | .ok st => st
  | .dead st _ => st

/-- Whether the run completed without an uncaught exception. -/
def RunOutcome.isOk : RunOutcome → Bool
  | .ok _ => true
  | .dead _ _ => false

/-- Source lines 150-154: the loop `for i in range(cap): try
tree.branches[i].activate() except IndexError: break`, started at slot `i`
with `fuel` iterations left.  Returns the list of slots activated, in
order, together with the outcome. -/
def driveAux (P : Preset) (g : ℕ → ℝ) : ℕ → ℕ → TreeState → List ℕ × RunOutcome
  | 0, _, st => ([], .ok st)
  | fuel + 1, i, st =>
    match st.branches[i]? with
    | none => ([], .ok st)
    | some none => ([], .dead st i)
    | some (some b) =>
      let r := driveAux P g fuel (i + 1) (activate P g st b)
      (i :: r.1, r.2)

/-- Source lines 148-154 (`generate_tree`): build the seed tree and activate
slots `0, 1, 2, ...` up to `MAX_BRANCH_COUNT` activations. -/
def generate_tree (P : Preset) (g : ℕ → ℝ) (pos : ℝ × ℝ) (angle : ℝ) :
    List ℕ × RunOutcome :=
  driveAux P g MAX_BRANCH_COUNT 0 (initTree P g pos angle)

/-- The fold-clamped proportion always lands in the unit interval. -/
lemma foldClamp_nonneg (x : ℝ) : 0 ≤ foldClamp x := le_max_right _ _

lemma foldClamp_le_one (x : ℝ) : foldClamp x ≤ 1 :=
  max_le (min_le_right _ _) zero_le_one

/-- Claim C4: for every real-valued sample `x` of the `Normal(0, 0.1)` draw,
the derived split proportion `foldClamp x` lies in `[0, 1]`; negative samples
are first folded to `1 + x` and the result is clamped.  In particular
`x = -0.05` yields `0.95`, `x = 1.3` yields `1`, and `x = -1.3` yields `0`.
Moreover the first child's size produced by `split_children` is the parent
size times exactly this proportion of the consumed draw. -/
theorem C4_proportion_folding :
    (∀ x : ℝ, 0 ≤ foldClamp x ∧ foldClamp x ≤ 1) ∧
    foldClamp (-(5 / 100)) = 95 / 100 ∧
    foldClamp (13 / 10) = 1 ∧
    foldClamp (-(13 / 10)) = 0 ∧
    (∀ (P : Preset) (g : ℕ → ℝ) (n L : ℕ) (pos : ℝ × ℝ) (s d : ℝ),
      (split_children P g n L pos s d).1.branch_size =
        s * foldClamp (gauss 0 (1 / 10) g n)) := by
  refine ⟨fun x => ⟨foldClamp_nonneg x, foldClamp_le_one x⟩, ?_, ?_, ?_,
    fun P g n L pos s d => rfl⟩
  · unfold foldClamp
    rw [if_pos (by norm_num)]
    norm_num
  · unfold foldClamp
    rw [if_neg (by norm_num)]
    norm_num
  · unfold foldClamp
    rw [if_pos (by norm_num)]
    norm_num

/-- Claim C1: at every split with parent size `s` and derived proportion `p`,
the children's sizes are `s * p` and `s * (1 - p)`, so they sum to the
parent's size exactly; the derived proportion lies in `[0, 1]`, and the sum
identity holds for every proportion in `[0, 1]`. -/
theorem C1_size_conservation (P : Preset) (g : ℕ → ℝ) (n L : ℕ)
    (pos : ℝ × ℝ) (s d : ℝ) :
    (split_children P g n L pos s d).1.branch_size =
      s * foldClamp (gauss 0 (1 / 10) g n) ∧
    (split_children P g n L pos s d).2.branch_size =
      s * (1 - foldClamp (gauss 0 (1 / 10) g n)) ∧
    (split_children P g n L pos s d).1.branch_size +
      (split_children P g n L pos s d).2.branch_size = s ∧
    0 ≤ foldClamp (gauss 0 (1 / 10) g n) ∧
    foldClamp (gauss 0 (1 / 10) g n) ≤ 1 ∧
    (∀ p : ℝ, 0 ≤ p → p ≤ 1 → s * p + s * (1 - p) = s) := by
  have h1 : (split_children P g n L pos s d).1.branch_size =
      s * foldClamp (gauss 0 (1 / 10) g n) := rfl
  have h2 : (split_children P g n L pos s d).2.branch_size =
      s * (1 - foldClamp (gauss 0 (1 / 10) g n)) := rfl
  refine ⟨h1, h2, by rw [h1, h2]; ring, foldClamp_nonneg _, foldClamp_le_one _,
    fun p _ _ => by ring⟩

/-- All-zero preset, used for concrete runs. -/
def P0 : Preset := ⟨0, 0, 0, 0, 0, 0, 0, 0⟩

/-- The all-zero random stream: every `gauss` draw returns its mean, and the
fold-clamped split proportion is exactly 0. -/
def g0 : ℕ → ℝ := fun _ => 0

/-- Witness for C1: size conservation evaluated at a concrete split of a
parent of size 1, and the sum identity at the concrete proportion 1/2. -/
theorem C1_size_conservation_witness :
    (split_children P0 g0 1 1 (0, 0) 1 0).1.branch_size +
      (split_children P0 g0 1 1 (0, 0) 1 0).2.branch_size = 1 ∧
    (1 : ℝ) * (1 / 2) + 1 * (1 - 1 / 2) = 1 :=
  ⟨(C1_size_conservation P0 g0 1 1 (0, 0) 1 0).2.2.1,
   (C1_size_conservation P0 g0 1 1 (0, 0) 1 0).2.2.2.2.2 (1 / 2)
     (by norm_num) (by norm_num)⟩

/-- Claim C5: if the requested width is below 1, each color channel is scaled
by the width and the drawn width is 1; otherwise the color is unchanged and
the drawn width is the width truncated to an integer.  In particular width
`0.4` with color `(255, 255, 255)` gives effective color `(102, 102, 102)`
at width 1, and width `2.7` keeps the color and draws at width 2. -/
theorem C5_draw_width_rule :
    (∀ (c : ℝ × ℝ × ℝ) (p1 p2 : ℝ × ℝ) (w : ℝ), w < 1 →
      draw c p1 p2 w =
        ⟨p1, p2, (c.1 * w, c.2.1 * w, c.2.2 * w), 1⟩) ∧
    (∀ (c : ℝ × ℝ × ℝ) (p1 p2 : ℝ × ℝ) (w : ℝ), 1 ≤ w →
      draw c p1 p2 w = ⟨p1, p2, c, ⌊w⌋⟩) ∧
    (∀ p1 p2 : ℝ × ℝ,
      draw (255, 255, 255) p1 p2 (4 / 10) = ⟨p1, p2, (102, 102, 102), 1⟩) ∧
    (∀ (c : ℝ × ℝ × ℝ) (p1 p2 : ℝ × ℝ),
      draw c p1 p2 (27 / 10) = ⟨p1, p2, c, 2⟩) := by
  have hlt : ∀ (c : ℝ × ℝ × ℝ) (p1 p2 : ℝ × ℝ) (w : ℝ), w < 1 →
      draw c p1 p2 w = ⟨p1, p2, (c.1 * w, c.2.1 * w, c.2.2 * w), 1⟩ := by
    intro c p1 p2 w hw
    unfold draw
    rw [if_pos hw]
  have hge : ∀ (c : ℝ × ℝ × ℝ) (p1 p2 : ℝ × ℝ) (w : ℝ), 1 ≤ w →
      draw c p1 p2 w = ⟨p1, p2, c, ⌊w⌋⟩ := by
    intro c p1 p2 w hw
    unfold draw pyInt
    rw [if_neg (not_lt.mpr hw), if_pos (le_trans zero_le_one hw)]
  refine ⟨hlt, hge, ?_, ?_⟩
  · intro p1 p2
    rw [hlt _ _ _ _ (by norm_num)]
    norm_num
  · intro c p1 p2
    rw [hge _ _ _ _ (by norm_num)]
    norm_num

/-- Witness for C5: the width-dimming rule evaluated at width `0.4` on pure
white and at width `2.7`. -/
theorem C5_draw_width_rule_witness :
    draw (255, 255, 255) (0, 0) (1, 1) (4 / 10) =
      ⟨(0, 0), (1, 1), (255 * (4 / 10), 255 * (4 / 10), 255 * (4 / 10)), 1⟩ ∧
    draw (255, 255, 255) (0, 0) (1, 1) (27 / 10) =
      ⟨(0, 0), (1, 1), (255, 255, 255), ⌊(27 : ℝ) / 10⌋⟩ :=
  ⟨C5_draw_width_rule.1 (255, 255, 255) (0, 0) (1, 1) (4 / 10) (by norm_num),
   C5_draw_width_rule.2.1 (255, 255, 255) (0, 0) (1, 1) (27 / 10) (by norm_num)⟩

/-- Claim C8: at every split the first child's direction is
`parent − angle·(1 − proportion)` and the second child's is
`parent + angle·proportion`, where `angle` is the `Normal(mean, range)` draw
scaled by `parent_size ^ angle_factor`; hence, for a positive sampled angle,
the child with the larger size fraction deviates from the parent direction by
the strictly smaller amount. -/
theorem C8_split_angles (P : Preset) (g : ℕ → ℝ) (n L : ℕ) (pos : ℝ × ℝ)
    (s d : ℝ) :
    (split_children P g n L pos s d).1.branch_direction =
      d - (gauss P.branch_angle_mean P.branch_angle_range g (n + 3) *
        s ^ P.branch_angle_factor) * (1 - foldClamp (gauss 0 (1 / 10) g n)) ∧
    (split_children P g n L pos s d).2.branch_direction =
      d + (gauss P.branch_angle_mean P.branch_angle_range g (n + 3) *
        s ^ P.branch_angle_factor) * foldClamp (gauss 0 (1 / 10) g n) ∧
    (0 < gauss P.branch_angle_mean P.branch_angle_range g (n + 3) *
        s ^ P.branch_angle_factor →
      1 - foldClamp (gauss 0 (1 / 10) g n) < foldClamp (gauss 0 (1 / 10) g n) →
      |(split_children P g n L pos s d).1.branch_direction - d| <
        |(split_children P g n L pos s d).2.branch_direction - d|) ∧
    (0 < gauss P.branch_angle_mean P.branch_angle_range g (n + 3) *
        s ^ P.branch_angle_factor →
      foldClamp (gauss 0 (1 / 10) g n) < 1 - foldClamp (gauss 0 (1 / 10) g n) →
      |(split_children P g n L pos s d).2.branch_direction - d| <
        |(split_children P g n L pos s d).1.branch_direction - d|) := by
  set a := gauss P.branch_angle_mean P.branch_angle_range g (n + 3) *
    s ^ P.branch_angle_factor with ha
  set p := foldClamp (gauss 0 (1 / 10) g n) with hp
  have h1 : (split_children P g n L pos s d).1.branch_direction =
      d - a * (1 - p) := rfl
  have h2 : (split_children P g n L pos s d).2.branch_direction =
      d + a * p := rfl
  have hp0 : 0 ≤ p := foldClamp_nonneg _
  have hp1 : p ≤ 1 := foldClamp_le_one _
  refine ⟨h1, h2, ?_, ?_⟩
  · intro hapos hfrac
    rw [h1, h2]
    have e1 : |d - a * (1 - p) - d| = a * (1 - p) := by
      rw [show d - a * (1 - p) - d = -(a * (1 - p)) by ring, abs_neg,
        abs_of_nonneg (mul_nonneg hapos.le (by linarith))]
    have e2 : |d + a * p - d| = a * p := by
      rw [show d + a * p - d = a * p by ring,
        abs_of_nonneg (mul_nonneg hapos.le hp0)]
    rw [e1, e2]
    exact mul_lt_mul_of_pos_left hfrac hapos
  · intro hapos hfrac
    rw [h1, h2]
    have e1 : |d - a * (1 - p) - d| = a * (1 - p) := by
      rw [show d - a * (1 - p) - d = -(a * (1 - p)) by ring, abs_neg,
        abs_of_nonneg (mul_nonneg hapos.le (by linarith))]
    have e2 : |d + a * p - d| = a * p := by
      rw [show d + a * p - d = a * p by ring,
        abs_of_nonneg (mul_nonneg hapos.le hp0)]
    rw [e1, e2]
    exact mul_lt_mul_of_pos_left hfrac hapos

/-- Preset with mean split angle 1 and all other parameters 0, for concrete
split-angle evaluation. -/
def P1 : Preset := ⟨0, 0, 0, 0, 0, 1, 0, 0⟩

/-- Constant stream whose fold-clamped proportion is `0.8`. -/
def gA : ℕ → ℝ := fun _ => 8

/-- Constant stream whose fold-clamped proportion is `0.2`. -/
def gB : ℕ → ℝ := fun _ => 2

/-- Witness for C8: with a split-angle draw of 1 and proportion `0.8`
(child 1 larger), child 1 deviates less; with proportion `0.2` (child 2
larger), child 2 deviates less. -/
theorem C8_split_angles_witness :
    |(split_children P1 gA 0 0 (0, 0) 1 0).1.branch_direction - 0| <
      |(split_children P1 gA 0 0 (0, 0) 1 0).2.branch_direction - 0| ∧
    |(split_children P1 gB 0 0 (0, 0) 1 0).2.branch_direction - 0| <
      |(split_children P1 gB 0 0 (0, 0) 1 0).1.branch_direction - 0| := by
  have hA : foldClamp (gauss 0 (1 / 10) gA 0) = 4 / 5 := by
    unfold foldClamp gauss gA
    rw [if_neg (by norm_num)]
    norm_num
  have hB : foldClamp (gauss 0 (1 / 10) gB 0) = 1 / 5 := by
    unfold foldClamp gauss gB
    rw [if_neg (by norm_num)]
    norm_num
  have haA : 0 < gauss P1.branch_angle_mean P1.branch_angle_range gA 3 *
      (1 : ℝ) ^ P1.branch_angle_factor := by
    unfold gauss P1 gA
    norm_num [Real.one_rpow]
  have haB : 0 < gauss P1.branch_angle_mean P1.branch_angle_range gB 3 *
      (1 : ℝ) ^ P1.branch_angle_factor := by
    unfold gauss P1 gB
    norm_num [Real.one_rpow]
  constructor
  · exact (C8_split_angles P1 gA 0 0 (0, 0) 1 0).2.2.1 haA
      (by rw [hA]; norm_num)
  · exact (C8_split_angles P1 gB 0 0 (0, 0) 1 0).2.2.2 haB
      (by rw [hB]; norm_num)

/-- The segment committed to the surface when a branch is activated
(source line 114). -/
def segOf (P : Preset) (b : Branch) : Segment :=
  draw (255, 255, 255) b.pos (final_position b)
    (P.branch_width * b.branch_size ^ P.branch_width_factor)

/-- Activation of a terminal branch (size at or below the minimum): the
segment is drawn and nothing else changes; in particular the slot is NOT
cleared. -/
lemma activate_of_le {P : Preset} {g : ℕ → ℝ} {st : TreeState} {b : Branch}
    (h : b.branch_size ≤ MINIMUM_BRANCH_SIZE) :
    activate P g st b =
      ⟨st.branches, st.segments ++ [segOf P b], st.counter⟩ := by
  unfold activate segOf
  rw [if_neg (not_lt.mpr h)]

/-- Activation of a splitting branch: the segment is drawn, the slot at
`b.index` is cleared, and the two children are appended at the end. -/
lemma activate_of_lt {P : Preset} {g : ℕ → ℝ} {st : TreeState} {b : Branch}
    (h : MINIMUM_BRANCH_SIZE < b.branch_size) :
    activate P g st b =
      ⟨(st.branches.set b.index none) ++
          [some (split_children P g st.counter st.branches.length
            (final_position b) b.branch_size b.branch_direction).1,
           some (split_children P g st.counter st.branches.length
            (final_position b) b.branch_size b.branch_direction).2],
        st.segments ++ [segOf P b], st.counter + 4⟩ := by
  unfold activate segOf branch_split
  rw [if_pos h]
  simp [List.length_set]

/-- Claim C2 (amended): activating a branch always commits its segment first;
when the size is strictly above `MINIMUM_BRANCH_SIZE` the slot is cleared to
`None` and exactly two branches are appended at the end; when the size is at
or below the minimum, the branch list is left entirely unchanged (zero
branches appended and the slot NOT cleared). -/
theorem C2_activation_amended (P : Preset) (g : ℕ → ℝ) (st : TreeState)
    (b : Branch) :
    (activate P g st b).segments = st.segments ++ [segOf P b] ∧
    (MINIMUM_BRANCH_SIZE < b.branch_size →
      (activate P g st b).branches =
        (st.branches.set b.index none) ++
          [some (split_children P g st.counter st.branches.length
            (final_position b) b.branch_size b.branch_direction).1,
           some (split_children P g st.counter st.branches.length
            (final_position b) b.branch_size b.branch_direction).2] ∧
      (activate P g st b).branches.length = st.branches.length + 2 ∧
      (b.index < st.branches.length →
        (activate P g st b).branches[b.index]? = some none)) ∧
    (b.branch_size ≤ MINIMUM_BRANCH_SIZE →
      (activate P g st b).branches = st.branches) := by
  refine ⟨?_, ?_, ?_⟩
  · rcases le_or_lt b.branch_size MINIMUM_BRANCH_SIZE with h | h
    · rw [activate_of_le h]
    · rw [activate_of_lt h]
  · intro h
    rw [activate_of_lt h]
    refine ⟨rfl, ?_, ?_⟩
    · simp [List.length_set]
    · intro hi
      rw [List.getElem?_append_left (by simpa [List.length_set] using hi),
        List.getElem?_set_eq_of_lt none hi]
  · intro h
    rw [activate_of_le h]

/-- A seed-sized branch at the origin (it splits when activated). -/
def sW : Branch := ⟨0, (0, 0), 1, 0, 0⟩

/-- A size-zero branch at the origin (terminal when activated). -/
def tW : Branch := ⟨0, (0, 0), 0, 0, 0⟩

/-- Witness for C2 (amended): activating the seed-sized branch clears slot 0
and appends its two children; activating the size-zero branch leaves the
branch list unchanged. -/
theorem C2_activation_amended_witness :
    (activate P0 g0 ⟨[some sW], [], 1⟩ sW).branches =
      ([some sW].set 0 none) ++
        [some (split_children P0 g0 1 1 (final_position sW) 1 0).1,
         some (split_children P0 g0 1 1 (final_position sW) 1 0).2] ∧
    (activate P0 g0 ⟨[some sW], [], 1⟩ sW).branches[0]? = some none ∧
    (activate P0 g0 ⟨[some tW], [], 1⟩ tW).branches = [some tW] := by
  have h1 := (C2_activation_amended P0 g0 ⟨[some sW], [], 1⟩ sW).2.1
    (by unfold sW MINIMUM_BRANCH_SIZE; norm_num)
  have h2 := (C2_activation_amended P0 g0 ⟨[some tW], [], 1⟩ tW).2.2
    (by unfold tW MINIMUM_BRANCH_SIZE; norm_num)
  exact ⟨h1.1, h1.2.2 (by simp [sW]), h2⟩

lemma driveAux_zero (P : Preset) (g : ℕ → ℝ) (i : ℕ) (st : TreeState) :
    driveAux P g 0 i st = ([], .ok st) := rfl

lemma driveAux_succ_none {st : TreeState} {i : ℕ}
    (hb : st.branches[i]? = none) (P : Preset) (g : ℕ → ℝ) (fuel : ℕ) :
    driveAux P g (fuel + 1) i st = ([], .ok st) := by
  conv_lhs => rw [driveAux]
  rw [hb]

lemma driveAux_succ_deadslot {st : TreeState} {i : ℕ}
    (hb : st.branches[i]? = some none) (P : Preset) (g : ℕ → ℝ) (fuel : ℕ) :
    driveAux P g (fuel + 1) i st = ([], .dead st i) := by
  conv_lhs => rw [driveAux]
  rw [hb]

lemma driveAux_succ_some {st : TreeState} {i : ℕ} {b : Branch}
    (hb : st.branches[i]? = some (some b)) (P : Preset) (g : ℕ → ℝ)
    (fuel : ℕ) :
    driveAux P g (fuel + 1) i st =
      (i :: (driveAux P g fuel (i + 1) (activate P g st b)).1,
        (driveAux P g fuel (i + 1) (activate P g st b)).2) := by
  conv_lhs => rw [driveAux]
  rw [hb]

/-- Activation never shrinks the branch list. -/
lemma activate_length_ge (P : Preset) (g : ℕ → ℝ) (st : TreeState)
    (b : Branch) :
    st.branches.length ≤ (activate P g st b).branches.length := by
  rcases le_or_lt b.branch_size MINIMUM_BRANCH_SIZE with h | h
  · rw [activate_of_le h]
  · rw [activate_of_lt h]
    simp [List.length_set]

/-- Invariant of the driving loop, entering iteration `i`: every in-range
slot at or beyond `i` is populated, and its branch records its own slot in
its `index` field. -/
def GoodFrom (i : ℕ) (st : TreeState) : Prop :=
  ∀ j, i ≤ j → j < st.branches.length →
    ∃ br : Branch, st.branches[j]? = some (some br) ∧ br.index = j

/-- Activating the branch at slot `i` preserves the invariant for the slots
from `i + 1` on: the only slot cleared is `i` itself, and the appended
children carry their actual positions as indices. -/
lemma activate_GoodFrom {P : Preset} {g : ℕ → ℝ} {st : TreeState}
    {b : Branch} {i : ℕ} (hidx : b.index = i) (hg : GoodFrom i st) :
    GoodFrom (i + 1) (activate P g st b) := by
  rcases le_or_lt b.branch_size MINIMUM_BRANCH_SIZE with h | h
  · rw [activate_of_le h]
    intro j hj hjl
    exact hg j (le_trans (Nat.le_succ i) hj) hjl
  · rw [activate_of_lt h]
    intro j hj hjl
    have hjl2 : j < st.branches.length + 2 := by
      simpa [List.length_set] using hjl
    have hset : (st.branches.set b.index none).length = st.branches.length :=
      List.length_set st.branches b.index none
    rcases show j < st.branches.length ∨ j = st.branches.length ∨
        j = st.branches.length + 1 by omega with hj1 | hj1 | hj1
    · obtain ⟨br, hbr, hbri⟩ := hg j (le_trans (Nat.le_succ i) hj) hj1
      refine ⟨br, ?_, hbri⟩
      show ((st.branches.set b.index none) ++ _)[j]? = some (some br)
      rw [List.getElem?_append_left (by omega : j <
        (st.branches.set b.index none).length),
        List.getElem?_set_ne (by omega : b.index ≠ j), hbr]
    · refine ⟨(split_children P g st.counter st.branches.length
        (final_position b) b.branch_size b.branch_direction).1, ?_, ?_⟩
      · show ((st.branches.set b.index none) ++ _)[j]? = _
        rw [List.getElem?_append_right (by omega :
          (st.branches.set b.index none).length ≤ j)]
        rw [show j - (st.branches.set b.index none).length = 0 by omega]
        rfl
      · rw [hj1]
        rfl
    · refine ⟨(split_children P g st.counter st.branches.length
        (final_position b) b.branch_size b.branch_direction).2, ?_, ?_⟩
      · show ((st.branches.set b.index none) ++ _)[j]? = _
        rw [List.getElem?_append_right (by omega :
          (st.branches.set b.index none).length ≤ j)]
        rw [show j - (st.branches.set b.index none).length = 1 by omega]
        rfl
      · rw [hj1]
        rfl

/-- Main specification of the driving loop, starting at slot `i` with the
invariant: the trace of activated slots is the contiguous ascending run from
`i`; at most `fuel` activations happen; the run ends normally; the branch
list never shrinks; and an early stop (fewer than `fuel` activations) happens
exactly when the final list is exhausted (its length is the slot at which the
loop stopped). -/
lemma driveAux_spec (P : Preset) (g : ℕ → ℝ) :
    ∀ (fuel i : ℕ) (st : TreeState), GoodFrom i st →
      i ≤ st.branches.length →
      (driveAux P g fuel i st).1 =
        List.range' i (driveAux P g fuel i st).1.length ∧
      (driveAux P g fuel i st).1.length ≤ fuel ∧
      ((driveAux P g fuel i st).2).isOk = true ∧
      st.branches.length ≤ (outState (driveAux P g fuel i st).2).branches.length ∧
      ((driveAux P g fuel i st).1.length = fuel ∨
        (outState (driveAux P g fuel i st).2).branches.length =
          i + (driveAux P g fuel i st).1.length) := by
  intro fuel
  induction fuel with
  | zero =>
    intro i st hg hi
    simp [driveAux_zero, outState, RunOutcome.isOk]
  | succ fuel ih =>
    intro i st hg hi
    match hb : st.branches[i]? with
    | none =>
      have hlen : st.branches.length ≤ i := by
        by_contra hcon
        push_neg at hcon
        obtain ⟨br, hbr, _⟩ := hg i le_rfl hcon
        rw [hb] at hbr
        simp at hbr
      rw [driveAux_succ_none hb]
      refine ⟨by simp, by simp, rfl, le_rfl, Or.inr ?_⟩
      show st.branches.length = i + ([] : List ℕ).length
      simp
      omega
    | some none =>
      have hlt : i < st.branches.length := by
        by_contra hcon
        push_neg at hcon
        rw [List.getElem?_eq_none hcon] at hb
        simp at hb
      obtain ⟨br, hbr, _⟩ := hg i le_rfl hlt
      rw [hb] at hbr
      simp at hbr
    | some (some b) =>
      have hlt : i < st.branches.length := by
        by_contra hcon
        push_neg at hcon
        rw [List.getElem?_eq_none hcon] at hb
        simp at hb
      have hidx : b.index = i := by
        obtain ⟨br, hbr, hbri⟩ := hg i le_rfl hlt
        rw [hb] at hbr
        simp only [Option.some.injEq] at hbr
        subst hbr
        exact hbri
      have hlen2 : i + 1 ≤ (activate P g st b).branches.length :=
        le_trans hlt (activate_length_ge P g st b)
      obtain ⟨h1, h2, h3, h4, h5⟩ := ih (i + 1) (activate P g st b)
        (activate_GoodFrom hidx hg) hlen2
      rw [driveAux_succ_some hb]
      refine ⟨?_, ?_, h3, ?_, ?_⟩
      · show i :: (driveAux P g fuel (i + 1) (activate P g st b)).1 =
          List.range' i (i :: (driveAux P g fuel (i + 1)
            (activate P g st b)).1).length
        rw [List.length_cons, List.range'_succ]
        exact congrArg (List.cons i) h1
      · show (i :: (driveAux P g fuel (i + 1) (activate P g st b)).1).length ≤
          fuel + 1
        simpa using Nat.succ_le_succ h2
      · exact le_trans (activate_length_ge P g st b) h4
      · rcases h5 with h5 | h5
        · exact Or.inl (by simpa using congrArg Nat.succ h5)
        · refine Or.inr ?_
          show (outState (driveAux P g fuel (i + 1)
            (activate P g st b)).2).branches.length =
            i + (i :: (driveAux P g fuel (i + 1) (activate P g st b)).1).length
          rw [h5]
          simp only [List.length_cons]
          omega

/-- The freshly constructed tree satisfies the loop invariant at slot 0. -/
lemma GoodFrom_init (P : Preset) (g : ℕ → ℝ) (pos : ℝ × ℝ) (dir : ℝ) :
    GoodFrom 0 (initTree P g pos dir) := by
  intro j hj hjl
  have hj0 : j = 0 := by
    have : j < 1 := by simpa [initTree] using hjl
    omega
  subst hj0
  exact ⟨⟨0, pos, 1, gauss P.branch_length_mean P.branch_length_range g 0,
    dir⟩, rfl, rfl⟩

/-- Claim C3: the driving loop activates slots `0, 1, 2, ...` in ascending
order, performs at most `cap` activations, completes normally (the
out-of-range access is success, not a fault), and performs fewer than `cap`
activations only when the branch list is exhausted — every slot of the final
list has been activated.  `generate_tree` is this loop at
`cap = MAX_BRANCH_COUNT`. -/
theorem C3_cap_and_normal_stop (P : Preset) (g : ℕ → ℝ) (pos : ℝ × ℝ)
    (dir : ℝ) (cap : ℕ) :
    (driveAux P g cap 0 (initTree P g pos dir)).1 =
      List.range' 0 (driveAux P g cap 0 (initTree P g pos dir)).1.length ∧
    (driveAux P g cap 0 (initTree P g pos dir)).1.length ≤ cap ∧
    ((driveAux P g cap 0 (initTree P g pos dir)).2).isOk = true ∧
    ((driveAux P g cap 0 (initTree P g pos dir)).1.length = cap ∨
      (outState (driveAux P g cap 0 (initTree P g pos dir)).2).branches.length =
        (driveAux P g cap 0 (initTree P g pos dir)).1.length) ∧
    (generate_tree P g pos dir).1.length ≤ MAX_BRANCH_COUNT := by
  obtain ⟨h1, h2, h3, h4, h5⟩ := driveAux_spec P g cap 0 (initTree P g pos dir)
    (GoodFrom_init P g pos dir) (by simp [initTree])
  refine ⟨h1, h2, h3, ?_, ?_⟩
  · rcases h5 with h5 | h5
    · exact Or.inl h5
    · exact Or.inr (by simpa using h5)
  · exact (driveAux_spec P g MAX_BRANCH_COUNT 0 (initTree P g pos dir)
      (GoodFrom_init P g pos dir) (by simp [initTree])).2.1

/-- Claim C10: on every run of the driving loop from a freshly constructed
tree, each in-range slot access finds a populated slot, so the dead-slot
dereference (the uncaught `AttributeError` on `None`) is unreachable: the
outcome is always normal completion, for every cap and in particular for
`generate_tree`. -/
theorem C10_dead_slot_unreachable (P : Preset) (g : ℕ → ℝ) (pos : ℝ × ℝ)
    (dir : ℝ) (cap : ℕ) :
    ((driveAux P g cap 0 (initTree P g pos dir)).2).isOk = true ∧
    ((generate_tree P g pos dir).2).isOk = true :=
  ⟨(driveAux_spec P g cap 0 (initTree P g pos dir)
      (GoodFrom_init P g pos dir) (by simp [initTree])).2.2.1,
   (driveAux_spec P g MAX_BRANCH_COUNT 0 (initTree P g pos dir)
      (GoodFrom_init P g pos dir) (by simp [initTree])).2.2.1⟩

/-- Claim C6: a split clears slot `i` and appends the two children at the
very end of the list, their stored `index` fields equal to their actual
positions (the list length at append time), both strictly greater than `i`
when `i` is in range; all other existing slots are untouched (never removed
or reordered); and the driving loop activates slots in the strictly
ascending gapless order `0, 1, 2, ...`. -/
theorem C6_children_after_parent (P : Preset) (g : ℕ → ℝ) (st : TreeState)
    (i : ℕ) (pos : ℝ × ℝ) (s d : ℝ) :
    (branch_split P g st i pos s d).branches =
      (st.branches.set i none) ++
        [some (split_children P g st.counter st.branches.length pos s d).1,
         some (split_children P g st.counter st.branches.length pos s d).2] ∧
    (split_children P g st.counter st.branches.length pos s d).1.index =
      st.branches.length ∧
    (split_children P g st.counter st.branches.length pos s d).2.index =
      st.branches.length + 1 ∧
    (branch_split P g st i pos s d).branches.length =
      st.branches.length + 2 ∧
    (branch_split P g st i pos s d).branches[st.branches.length]? =
      some (some (split_children P g st.counter st.branches.length pos s d).1) ∧
    (branch_split P g st i pos s d).branches[st.branches.length + 1]? =
      some (some (split_children P g st.counter st.branches.length pos s d).2) ∧
    (i < st.branches.length →
      i < (split_children P g st.counter st.branches.length pos s d).1.index ∧
      i < (split_children P g st.counter st.branches.length pos s d).2.index) ∧
    (∀ j, j < st.branches.length → j ≠ i →
      (branch_split P g st i pos s d).branches[j]? = st.branches[j]?) ∧
    (∀ (pos2 : ℝ × ℝ) (dir : ℝ) (cap : ℕ),
      (driveAux P g cap 0 (initTree P g pos2 dir)).1 =
        List.range' 0 (driveAux P g cap 0 (initTree P g pos2 dir)).1.length) := by
  have hset : (st.branches.set i none).length = st.branches.length :=
    List.length_set st.branches i none
  have hbr : (branch_split P g st i pos s d).branches =
      (st.branches.set i none) ++
        [some (split_children P g st.counter st.branches.length pos s d).1,
         some (split_children P g st.counter st.branches.length pos s d).2] := by
    simp only [branch_split]
    rw [hset]
  refine ⟨hbr, rfl, rfl, ?_, ?_, ?_, fun hi => ⟨hi, Nat.lt_succ_of_lt hi⟩,
    ?_, ?_⟩
  · rw [hbr]
    simp [hset]
  · rw [hbr, List.getElem?_append_right (by omega : (st.branches.set i
      none).length ≤ st.branches.length)]
    rw [show st.branches.length - (st.branches.set i none).length = 0 by omega]
    rfl
  · rw [hbr, List.getElem?_append_right (by omega : (st.branches.set i
      none).length ≤ st.branches.length + 1)]
    rw [show st.branches.length + 1 - (st.branches.set i none).length = 1
      by omega]
    rfl
  · intro j hj hne
    rw [hbr, List.getElem?_append_left (by omega : j <
      (st.branches.set i none).length),
      List.getElem?_set_ne (fun h => hne h.symm)]
  · intro pos2 dir cap
    exact (driveAux_spec P g cap 0 (initTree P g pos2 dir)
      (GoodFrom_init P g pos2 dir) (by simp [initTree])).1

/-- Witness for C6: a concrete split of slot 1 in a two-slot tree: the
children land at slots 2 and 3 (both above 1) and slot 0 is untouched. -/
theorem C6_children_after_parent_witness :
    (1 < (split_children P0 g0 1 2 (0, 0) 1 0).1.index ∧
      1 < (split_children P0 g0 1 2 (0, 0) 1 0).2.index) ∧
    (branch_split P0 g0 ⟨[some sW, some tW], [], 1⟩ 1 (0, 0) 1 0).branches[0]? =
      (⟨[some sW, some tW], [], 1⟩ : TreeState).branches[0]? := by
  have h := C6_children_after_parent P0 g0 ⟨[some sW, some tW], [], 1⟩ 1
    (0, 0) 1 0
  exact ⟨h.2.2.2.2.2.2.1 (by norm_num), h.2.2.2.2.2.2.2.1 0 (by norm_num)
    (by norm_num)⟩

/-- All populated slots hold branch sizes in the unit interval `[0, 1]`. -/
def SizesOK (st : TreeState) : Prop :=
  ∀ (j : ℕ) (br : Branch), st.branches[j]? = some (some br) →
    0 ≤ br.branch_size ∧ br.branch_size ≤ 1

/-- Children sizes are the parent's size times factors in `[0, 1]`: both are
nonnegative and at most the parent's size. -/
lemma split_children_sizes (P : Preset) (g : ℕ → ℝ) (n L : ℕ)
    (pos : ℝ × ℝ) {s : ℝ} (d : ℝ) (hs0 : 0 ≤ s) :
    0 ≤ (split_children P g n L pos s d).1.branch_size ∧
    (split_children P g n L pos s d).1.branch_size ≤ s ∧
    0 ≤ (split_children P g n L pos s d).2.branch_size ∧
    (split_children P g n L pos s d).2.branch_size ≤ s := by
  have h1 : (split_children P g n L pos s d).1.branch_size =
      s * foldClamp (gauss 0 (1 / 10) g n) := rfl
  have h2 : (split_children P g n L pos s d).2.branch_size =
      s * (1 - foldClamp (gauss 0 (1 / 10) g n)) := rfl
  have hp0 := foldClamp_nonneg (gauss 0 (1 / 10) g n)
  have hp1 := foldClamp_le_one (gauss 0 (1 / 10) g n)
  rw [h1, h2]
  refine ⟨mul_nonneg hs0 hp0, ?_, mul_nonneg hs0 (by linarith), ?_⟩
  · exact mul_le_of_le_one_right hs0 hp1
  · exact mul_le_of_le_one_right hs0 (by linarith)

/-- Activation of a branch whose size lies in `[0, 1]` preserves the size
invariant. -/
lemma activate_SizesOK {P : Preset} {g : ℕ → ℝ} {st : TreeState} {b : Branch}
    (hb0 : 0 ≤ b.branch_size) (hb1 : b.branch_size ≤ 1) (hs : SizesOK st) :
    SizesOK (activate P g st b) := by
  rcases le_or_lt b.branch_size MINIMUM_BRANCH_SIZE with h | h
  · rw [activate_of_le h]
    exact hs
  · rw [activate_of_lt h]
    intro j br hbr
    have hL : (st.branches.set b.index none).length = st.branches.length :=
      List.length_set st.branches b.index none
    have hj2 : j < st.branches.length + 2 := by
      obtain ⟨hj, _⟩ := List.getElem?_eq_some.mp hbr
      simpa [hL] using hj
    obtain ⟨hsz1, hsz1b, hsz2, hsz2b⟩ := split_children_sizes P g st.counter
      st.branches.length (final_position b) b.branch_direction hb0
    rcases show j < st.branches.length ∨ j = st.branches.length ∨
        j = st.branches.length + 1 by omega with hj1 | hj1 | hj1
    · rw [List.getElem?_append_left (by omega : j <
        (st.branches.set b.index none).length)] at hbr
      by_cases he : b.index = j
      · subst he
        rw [List.getElem?_set_eq_of_lt none (by omega)] at hbr
        simp at hbr
      · rw [List.getElem?_set_ne he] at hbr
        exact hs j br hbr
    · subst hj1
      rw [List.getElem?_append_right (by omega :
        (st.branches.set b.index none).length ≤ st.branches.length)] at hbr
      rw [show st.branches.length - (st.branches.set b.index none).length = 0
        by omega] at hbr
      simp only [List.getElem?_cons_zero, Option.some.injEq] at hbr
      subst hbr
      exact ⟨hsz1, le_trans hsz1b hb1⟩
    · subst hj1
      rw [List.getElem?_append_right (by omega :
        (st.branches.set b.index none).length ≤ st.branches.length + 1)] at hbr
      rw [show st.branches.length + 1 -
        (st.branches.set b.index none).length = 1 by omega] at hbr
      simp only [List.getElem?_cons_succ, List.getElem?_cons_zero,
        Option.some.injEq] at hbr
      subst hbr
      exact ⟨hsz2, le_trans hsz2b hb1⟩

/-- The driving loop preserves the size invariant. -/
lemma driveAux_SizesOK (P : Preset) (g : ℕ → ℝ) :
    ∀ (fuel i : ℕ) (st : TreeState), SizesOK st →
      SizesOK (outState (driveAux P g fuel i st).2) := by
  intro fuel
  induction fuel with
  | zero =>
    intro i st hs
    simpa [driveAux_zero, outState] using hs
  | succ fuel ih =>
    intro i st hs
    match hb : st.branches[i]? with
    | none =>
      rw [driveAux_succ_none hb]
      exact hs
    | some none =>
      rw [driveAux_succ_deadslot hb]
      exact hs
    | some (some b) =>
      rw [driveAux_succ_some hb]
      obtain ⟨hb0, hb1⟩ := hs i b hb
      exact ih (i + 1) (activate P g st b) (activate_SizesOK hb0 hb1 hs)

/-- The freshly constructed tree satisfies the size invariant (seed size 1). -/
lemma SizesOK_init (P : Preset) (g : ℕ → ℝ) (pos : ℝ × ℝ) (dir : ℝ) :
    SizesOK (initTree P g pos dir) := by
  intro j br h
  cases j with
  | zero =>
    simp only [initTree, List.getElem?_cons_zero, Option.some.injEq] at h
    subst h
    exact ⟨zero_le_one, le_refl 1⟩
  | succ n =>
    simp [initTree] at h

/-- Claim C7 (amended): the seed branch has size exactly 1; at every split of
a parent with nonnegative size the children's sizes are the parent's size
times `p` and `1 − p` with the proportion `p` in `[0, 1]`, hence both
nonnegative and at most the parent's size (multiplicative decay); and every
branch held in any final state reachable by the driving loop has size in
`[0, 1]`.  (The original claim's strict lower bound `0 <` fails: the
proportion can be exactly 0, producing a child of size exactly 0.) -/
theorem C7_sizes_amended :
    (∀ (P : Preset) (g : ℕ → ℝ) (pos : ℝ × ℝ) (dir : ℝ),
      (initTree P g pos dir).branches[0]? =
        some (some ⟨0, pos, 1,
          gauss P.branch_length_mean P.branch_length_range g 0, dir⟩)) ∧
    (∀ (P : Preset) (g : ℕ → ℝ) (n L : ℕ) (pos : ℝ × ℝ) (s d : ℝ), 0 ≤ s →
      (split_children P g n L pos s d).1.branch_size =
        s * foldClamp (gauss 0 (1 / 10) g n) ∧
      (split_children P g n L pos s d).2.branch_size =
        s * (1 - foldClamp (gauss 0 (1 / 10) g n)) ∧
      0 ≤ (split_children P g n L pos s d).1.branch_size ∧
      (split_children P g n L pos s d).1.branch_size ≤ s ∧
      0 ≤ (split_children P g n L pos s d).2.branch_size ∧
      (split_children P g n L pos s d).2.branch_size ≤ s) ∧
    (∀ (P : Preset) (g : ℕ → ℝ) (pos : ℝ × ℝ) (dir : ℝ) (cap j : ℕ)
      (br : Branch),
      (outState (driveAux P g cap 0 (initTree P g pos dir)).2).branches[j]? =
        some (some br) → 0 ≤ br.branch_size ∧ br.branch_size ≤ 1) := by
  refine ⟨fun P g pos dir => rfl, ?_, ?_⟩
  · intro P g n L pos s d hs
    obtain ⟨a, b, c, e⟩ := split_children_sizes P g n L pos d hs
    exact ⟨rfl, rfl, a, b, c, e⟩
  · intro P g pos dir cap j br h
    exact driveAux_SizesOK P g cap 0 (initTree P g pos dir)
      (SizesOK_init P g pos dir) j br h

/-- The seed branch of the all-zero concrete run (its sampled length is 0). -/
def seed0 : Branch := ⟨0, (0, 0), 1, 0, 0⟩

/-- First child of the seed's split under the all-zero stream: proportion 0
gives size exactly 0. -/
def b10 : Branch := ⟨1, (0, 0), 0, 0, 0⟩

/-- Second child of the seed's split under the all-zero stream: it inherits
the full parent size 1. -/
def b20 : Branch := ⟨2, (0, 0), 1, 0, 0⟩

/-- The degenerate zero segment drawn by every activation of the all-zero
run (width 0 dims the color to black and draws at width 1). -/
def seg0 : Segment := ⟨(0, 0), (0, 0), (0, 0, 0), 1⟩

/-- Witness for C7 (amended): the seed split at parent size 1, and the seed
branch of the concrete zero-stream run. -/
theorem C7_sizes_amended_witness :
    ((split_children P0 g0 1 1 (0, 0) 1 0).1.branch_size ≤ 1 ∧
      0 ≤ (split_children P0 g0 1 1 (0, 0) 1 0).2.branch_size) ∧
    (0 ≤ seed0.branch_size ∧ seed0.branch_size ≤ 1) := by
  have h2 := C7_sizes_amended.2.1 P0 g0 1 1 (0, 0) 1 0 (by norm_num)
  have h3 := C7_sizes_amended.2.2 P0 g0 (0, 0) 0 0 0
    ⟨0, (0, 0), 1, gauss P0.branch_length_mean P0.branch_length_range g0 0, 0⟩
    rfl
  exact ⟨⟨h2.2.2.2.1, h2.2.2.2.2.1⟩, h3⟩

/-- Under the all-zero stream every fold-clamped proportion draw is 0. -/
lemma foldClamp_g0 (n : ℕ) : foldClamp (gauss 0 (1 / 10) g0 n) = 0 := by
  unfold foldClamp gauss g0
  rw [if_neg (by norm_num)]
  norm_num

/-- The all-zero run's seed tree. -/
lemma init_eval : initTree P0 g0 (0, 0) 0 = ⟨[some seed0], [], 1⟩ := by
  unfold initTree gauss P0 g0 seed0
  norm_num

/-- Concrete split of the seed under the all-zero stream: children of sizes
0 and 1. -/
lemma split_children_eval :
    split_children P0 g0 1 1 (0, 0) 1 0 = (b10, b20) := by
  simp only [split_children, foldClamp_g0]
  unfold gauss P0 g0 b10 b20
  norm_num

lemma final_position_seed0 : final_position seed0 = (0, 0) := by
  unfold final_position seed0
  norm_num

lemma segOf_seed0 : segOf P0 seed0 = seg0 := by
  unfold segOf
  rw [final_position_seed0]
  unfold draw P0 seed0 seg0
  split_ifs with h
  · norm_num
  · exfalso
    apply h
    norm_num

lemma final_position_b10 : final_position b10 = (0, 0) := by
  unfold final_position b10
  norm_num

lemma segOf_b10 : segOf P0 b10 = seg0 := by
  unfold segOf
  rw [final_position_b10]
  unfold draw P0 b10 seg0
  split_ifs with h
  · norm_num
  · exfalso
    apply h
    norm_num

/-- Activating the seed of the all-zero run: slot 0 is cleared, the children
of sizes 0 and 1 are appended, the degenerate segment is drawn, and four
draws are consumed. -/
lemma act_seed : activate P0 g0 ⟨[some seed0], [], 1⟩ seed0 =
    ⟨[none, some b10, some b20], [seg0], 5⟩ := by
  rw [activate_of_lt (by unfold seed0 MINIMUM_BRANCH_SIZE; norm_num)]
  rw [segOf_seed0, final_position_seed0]
  simp only [seed0, List.length_cons, List.length_nil]
  rw [split_children_eval]
  rfl

/-- Activating the size-0 child: terminal, only the segment is appended; in
particular its slot is NOT cleared. -/
lemma act_b10 : activate P0 g0 ⟨[none, some b10, some b20], [seg0], 5⟩ b10 =
    ⟨[none, some b10, some b20], [seg0, seg0], 5⟩ := by
  rw [activate_of_le (by unfold b10 MINIMUM_BRANCH_SIZE; norm_num)]
  rw [segOf_b10]
  rfl

/-- One activation of the all-zero run. -/
lemma drive1 : driveAux P0 g0 1 0 ⟨[some seed0], [], 1⟩ =
    ([0], .ok ⟨[none, some b10, some b20], [seg0], 5⟩) := by
  have h1 : driveAux P0 g0 1 0 (⟨[some seed0], [], 1⟩ : TreeState) =
      (0 :: (driveAux P0 g0 0 1
          (activate P0 g0 ⟨[some seed0], [], 1⟩ seed0)).1,
        (driveAux P0 g0 0 1
          (activate P0 g0 ⟨[some seed0], [], 1⟩ seed0)).2) :=
    driveAux_succ_some (show ((⟨[some seed0], [], 1⟩ :
      TreeState)).branches[0]? = some (some seed0) from rfl) P0 g0 0
  rw [h1, act_seed, driveAux_zero]

/-- Two activations of the all-zero run: the trace is `[0, 1]` and slot 1
is still populated after its own activation. -/
lemma drive2 : driveAux P0 g0 2 0 ⟨[some seed0], [], 1⟩ =
    ([0, 1], .ok ⟨[none, some b10, some b20], [seg0, seg0], 5⟩) := by
  have h1 : driveAux P0 g0 2 0 (⟨[some seed0], [], 1⟩ : TreeState) =
      (0 :: (driveAux P0 g0 1 1
          (activate P0 g0 ⟨[some seed0], [], 1⟩ seed0)).1,
        (driveAux P0 g0 1 1
          (activate P0 g0 ⟨[some seed0], [], 1⟩ seed0)).2) :=
    driveAux_succ_some (show ((⟨[some seed0], [], 1⟩ :
      TreeState)).branches[0]? = some (some seed0) from rfl) P0 g0 1
  rw [h1, act_seed]
  have h2 : driveAux P0 g0 1 1
      (⟨[none, some b10, some b20], [seg0], 5⟩ : TreeState) =
      (1 :: (driveAux P0 g0 0 2 (activate P0 g0
          ⟨[none, some b10, some b20], [seg0], 5⟩ b10)).1,
        (driveAux P0 g0 0 2 (activate P0 g0
          ⟨[none, some b10, some b20], [seg0], 5⟩ b10)).2) :=
    driveAux_succ_some (show ((⟨[none, some b10, some b20], [seg0], 5⟩ :
      TreeState)).branches[1]? = some (some b10) from rfl) P0 g0 0
  rw [h2, act_b10, driveAux_zero]

/-- Counterexample to claim C7 as stated: in the concrete run driven by the
all-zero stream, the split of the seed creates the branch `b10` at slot 1
with size exactly 0, which is NOT strictly greater than 0. -/
theorem C7_counterexample :
    (outState (driveAux P0 g0 1 0 (initTree P0 g0 (0, 0) 0)).2).branches[1]? =
      some (some b10) ∧
    b10.branch_size = 0 ∧
    ¬ 0 < b10.branch_size := by
  rw [init_eval, drive1]
  refine ⟨rfl, rfl, ?_⟩
  rw [show b10.branch_size = (0 : ℝ) from rfl]
  exact lt_irrefl 0

/-- Counterexample to claim C2 as stated: in the all-zero run, slot 1 is
activated (the trace is `[0, 1]`), its size is at or below
`MINIMUM_BRANCH_SIZE`, and after its activation the slot still holds the
branch — it is NOT cleared to `None`. -/
theorem C2_counterexample :
    (driveAux P0 g0 2 0 (initTree P0 g0 (0, 0) 0)).1 = [0, 1] ∧
    b10.branch_size ≤ MINIMUM_BRANCH_SIZE ∧
    (outState (driveAux P0 g0 2 0 (initTree P0 g0 (0, 0) 0)).2).branches[1]? =
      some (some b10) ∧
    (((outState (driveAux P0 g0 2 0
      (initTree P0 g0 (0, 0) 0)).2).branches[1]?).getD none).isSome = true := by
  rw [init_eval, drive2]
  refine ⟨rfl, ?_, rfl, rfl⟩
  rw [show b10.branch_size = (0 : ℝ) from rfl]
  unfold MINIMUM_BRANCH_SIZE
  norm_num

/-- Activation never rewinds the draw counter. -/
lemma activate_counter_le (P : Preset) (g : ℕ → ℝ) (st : TreeState)
    (b : Branch) : st.counter ≤ (activate P g st b).counter := by
  rcases le_or_lt b.branch_size MINIMUM_BRANCH_SIZE with h | h
  · rw [activate_of_le h]
  · rw [activate_of_lt h]
    exact Nat.le_add_right _ 4

/-- Activation reads the stream only at the draws it consumes: two streams
agreeing on `[st.counter, (activate).counter)` produce the same state. -/
lemma activate_congr {P : Preset} {g1 g2 : ℕ → ℝ} {st : TreeState}
    {b : Branch}
    (h : ∀ n, st.counter ≤ n → n < (activate P g1 st b).counter →
      g1 n = g2 n) :
    activate P g1 st b = activate P g2 st b := by
  rcases le_or_lt b.branch_size MINIMUM_BRANCH_SIZE with hs | hs
  · rw [activate_of_le hs, activate_of_le hs]
  · have hc : (activate P g1 st b).counter = st.counter + 4 := by
      rw [activate_of_lt hs]
    have e0 : g1 st.counter = g2 st.counter :=
      h _ le_rfl (by rw [hc]; omega)
    have e1 : g1 (st.counter + 1) = g2 (st.counter + 1) :=
      h _ (by omega) (by rw [hc]; omega)
    have e2 : g1 (st.counter + 2) = g2 (st.counter + 2) :=
      h _ (by omega) (by rw [hc]; omega)
    have e3 : g1 (st.counter + 3) = g2 (st.counter + 3) :=
      h _ (by omega) (by rw [hc]; omega)
    have hsc : split_children P g1 st.counter st.branches.length
        (final_position b) b.branch_size b.branch_direction =
        split_children P g2 st.counter st.branches.length
        (final_position b) b.branch_size b.branch_direction := by
      simp only [split_children, gauss]
      rw [e0, e1, e2, e3]
    rw [activate_of_lt hs, activate_of_lt hs, hsc]

/-- The driving loop never rewinds the draw counter. -/
lemma driveAux_counter_le (P : Preset) (g : ℕ → ℝ) :
    ∀ (fuel i : ℕ) (st : TreeState),
      st.counter ≤ (outState (driveAux P g fuel i st).2).counter := by
  intro fuel
  induction fuel with
  | zero =>
    intro i st
    exact le_rfl
  | succ fuel ih =>
    intro i st
    match hb : st.branches[i]? with
    | none =>
      rw [driveAux_succ_none hb]
      exact le_rfl
    | some none =>
      rw [driveAux_succ_deadslot hb]
      exact le_rfl
    | some (some b) =>
      rw [driveAux_succ_some hb]
      exact le_trans (activate_counter_le P g st b)
        (ih (i + 1) (activate P g st b))

/-- The driving loop reads the stream sequentially: two streams agreeing on
every draw index below the final counter of the first run produce identical
runs. -/
lemma driveAux_congr (P : Preset) (g1 g2 : ℕ → ℝ) :
    ∀ (fuel i : ℕ) (st : TreeState),
      (∀ n, st.counter ≤ n →
        n < (outState (driveAux P g1 fuel i st).2).counter → g1 n = g2 n) →
      driveAux P g1 fuel i st = driveAux P g2 fuel i st := by
  intro fuel
  induction fuel with
  | zero =>
    intro i st h
    rfl
  | succ fuel ih =>
    intro i st h
    match hb : st.branches[i]? with
    | none =>
      rw [driveAux_succ_none hb, driveAux_succ_none hb]
    | some none =>
      rw [driveAux_succ_deadslot hb, driveAux_succ_deadslot hb]
    | some (some b) =>
      have hfin : (activate P g1 st b).counter ≤
          (outState (driveAux P g1 (fuel + 1) i st).2).counter := by
        rw [driveAux_succ_some hb]
        exact driveAux_counter_le P g1 fuel (i + 1) (activate P g1 st b)
      have hact : activate P g1 st b = activate P g2 st b :=
        activate_congr (fun n hn hlt => h n hn (lt_of_lt_of_le hlt hfin))
      have hrec : driveAux P g1 fuel (i + 1) (activate P g1 st b) =
          driveAux P g2 fuel (i + 1) (activate P g1 st b) := by
        apply ih
        intro n hn hlt
        apply h n (le_trans (activate_counter_le P g1 st b) hn)
        rw [driveAux_succ_some hb]
        exact hlt
      rw [driveAux_succ_some hb, driveAux_succ_some hb, ← hact, hrec]

/-- Claim C9: generation is deterministic relative to its random stream: two
runs with the same origin, direction and preset whose streams agree on every
draw consumed by the first run (all indices below its final counter) produce
identical traces, final states and, in particular, identical sequences of
drawn segments.  This holds for every cap and for `generate_tree` itself. -/
theorem C9_determinism (P : Preset) (pos : ℝ × ℝ) (dir : ℝ)
    (g1 g2 : ℕ → ℝ) :
    (∀ cap : ℕ,
      (∀ n, n < (outState (driveAux P g1 cap 0
          (initTree P g1 pos dir)).2).counter → g1 n = g2 n) →
      driveAux P g1 cap 0 (initTree P g1 pos dir) =
        driveAux P g2 cap 0 (initTree P g2 pos dir)) ∧
    ((∀ n, n < (outState (generate_tree P g1 pos dir).2).counter →
        g1 n = g2 n) →
      generate_tree P g1 pos dir = generate_tree P g2 pos dir ∧
      (outState (generate_tree P g1 pos dir).2).segments =
        (outState (generate_tree P g2 pos dir).2).segments) := by
  have main : ∀ cap : ℕ,
      (∀ n, n < (outState (driveAux P g1 cap 0
          (initTree P g1 pos dir)).2).counter → g1 n = g2 n) →
      driveAux P g1 cap 0 (initTree P g1 pos dir) =
        driveAux P g2 cap 0 (initTree P g2 pos dir) := by
    intro cap h
    have hcnt : (initTree P g1 pos dir).counter ≤
        (outState (driveAux P g1 cap 0 (initTree P g1 pos dir)).2).counter :=
      driveAux_counter_le P g1 cap 0 _
    have h0 : g1 0 = g2 0 := h 0 (lt_of_lt_of_le Nat.one_pos hcnt)
    have hinit : initTree P g1 pos dir = initTree P g2 pos dir := by
      unfold initTree gauss
      rw [h0]
    have hd := driveAux_congr P g1 g2 cap 0 (initTree P g1 pos dir)
      (fun n hn hlt => h n hlt)
    rw [hd, hinit]
  refine ⟨main, fun h => ?_⟩
  have hg := main MAX_BRANCH_COUNT h
  exact ⟨hg, congrArg (fun r => (outState r.2).segments) hg⟩

/-- A stream that agrees with the all-zero stream exactly on the five draws
consumed by the one-activation run, and differs afterwards. -/
def g2w : ℕ → ℝ := fun n => if n < 5 then 0 else 1

/-- Witness for C9: the one-activation run under the all-zero stream equals
the run under a stream that differs only beyond the five consumed draws; and
the trivial self-agreement instance for `generate_tree`. -/
theorem C9_determinism_witness :
    driveAux P0 g0 1 0 (initTree P0 g0 (0, 0) 0) =
      driveAux P0 g2w 1 0 (initTree P0 g2w (0, 0) 0) ∧
    generate_tree P0 g0 (0, 0) 0 = generate_tree P0 g0 (0, 0) 0 := by
  constructor
  · apply (C9_determinism P0 (0, 0) 0 g0 g2w).1 1
    intro n hn
    rw [init_eval, drive1] at hn
    have hn5 : n < 5 := hn
    unfold g0 g2w
    rw [if_pos hn5]
  · exact ((C9_determinism P0 (0, 0) 0 g0 g0).2 (fun n _ => rfl)).1

end Fractal
